import Mathlib
namespace Perfumes

/-!
Verification of the perfume-scraper pipeline (`src/scrapper/gpt.py`,
`src/scrapper/build_catalog.py`, `src/scrapper/upload_data.py`).

Python strings are modelled as `List Char`; Python `dict`s as insertion-ordered
association lists; fallible code as `Option`.  Machine floats only ever carry
exact decimal values in the code under scrutiny, so they are modelled as `ℚ`.
-/

/-! ## Character classes (ASCII fragment of the Python `str` predicates) -/

/-- Python whitespace class `\s` (ASCII fragment): space, tab, LF, CR, VT, FF. -/
def pyWs (c : Char) : Bool :=
  c.toNat = 32 || c.toNat = 9 || c.toNat = 10 || c.toNat = 13 || c.toNat = 11 || c.toNat = 12

/-- Lowercase ASCII letter `[a-z]`. -/
def isLowerAl (c : Char) : Bool := 97 ≤ c.toNat && c.toNat ≤ 122

/-- ASCII digit `[0-9]`. -/
def isDigitC (c : Char) : Bool := 48 ≤ c.toNat && c.toNat ≤ 57

/-- Python `str.lower` on the ASCII fragment: maps `A`-`Z` to `a`-`z`,
everything else unchanged.  (Non-ASCII case folding is immaterial here: every
non-ASCII letter is removed by the `[^a-z0-9\s-]` filter whether folded or not.) -/
def lowerC (c : Char) : Char :=
  if 65 ≤ c.toNat && c.toNat ≤ 90 then Char.ofNat (c.toNat + 32) else c

/-- The character class `[a-z0-9\s-]` kept by the first `re.sub` of `to_slug`. -/
def isKeep (c : Char) : Bool := isLowerAl c || isDigitC c || pyWs c || c = '-'

/-- Python `str.strip()`: drop leading and trailing whitespace. -/
def pyStrip (s : List Char) : List Char :=
  ((s.dropWhile pyWs).reverse.dropWhile pyWs).reverse

/-! ## Slug normalizer (`to_slug`, identical in gpt.py:25-30 and
build_catalog.py:37-42) -/

/-- One pass of `re.sub(pat+ , r)`: every maximal run of characters satisfying
`p` is replaced by the single character `r`.  The boolean flag records whether
the previous character was part of a run. -/
def collapseRuns (p : Char → Bool) (r : Char) : List Char → Bool → List Char
  | [], _ => []
  | c :: rest, inRun =>
    if p c then
      (if inRun then collapseRuns p r rest true else r :: collapseRuns p r rest true)
    else c :: collapseRuns p r rest false

/-- Hyphen character class, for `re.sub(r"-+", "-")`. -/
def isHyp (c : Char) : Bool := c = '-'

/-- Function `to_slug` from the source: strip, lowercase, delete `[^a-z0-9\s-]`,
replace whitespace runs by `-`, collapse hyphen runs. -/
def to_slug (s : List Char) : List Char :=
  let s1 := (pyStrip s).map lowerC
  let s2 := s1.filter isKeep
  let s3 := collapseRuns pyWs '-' s2 false
  collapseRuns isHyp '-' s3 false

/-- Decides the regex of the spec, `[a-z0-9]+(-[a-z0-9]+)*` (anchored): runs of
lowercase alphanumerics separated by single hyphens, no leading/trailing
hyphen, at least one character.  The flag is true while at least one
alphanumeric is still required before the next hyphen or the end. -/
def slugAux : List Char → Bool → Bool
  | [], needAl => !needAl
  | c :: rest, needAl =>
    if isLowerAl c || isDigitC c then slugAux rest false
    else if c = '-' then (if needAl then false else slugAux rest true)
    else false

/-- Anchored match of `^[a-z0-9]+(-[a-z0-9]+)*$`. -/
def isSlugToken (s : List Char) : Bool := slugAux s true

/-- No two adjacent hyphens anywhere in the list. -/
def noDoubleHyphen : List Char → Bool
  | c :: d :: rest => (!(c = '-' && d = '-')) && noDoubleHyphen (d :: rest)
  | _ => true

/-! ## Generic list helper lemmas -/

/-! ## Facts about `collapseRuns` and `to_slug` -/

/-! ## Record assembler: name/gender split (gpt.py:191,193)

The source computes `name.text.split(" for ")[0]` and
`name.text.split(" for ")[1]`.  The Python `str.split(sep)` for a non-empty
separator cuts at every non-overlapping occurrence, scanning left to right.
The code consumes only elements `0` and `1` of that list, i.e. the prefix
before the first occurrence and the chunk between the first and second
occurrences; element `1` raises `IndexError` when the separator is absent,
which aborts the extraction of the page.  `splitFirst` models one scanning step of
that split: the part before the first occurrence and the remainder after it,
or `none` when the separator does not occur. -/

def isPrefixB : List Char → List Char → Bool
  | [], _ => true
  | _ :: _, [] => false
  | a :: as, b :: bs => a = b && isPrefixB as bs

def splitFirst (sep : List Char) : List Char → Option (List Char × List Char)
  | [] => none
  | c :: rest =>
    if isPrefixB sep (c :: rest) then some ([], (c :: rest).drop sep.length)
    else
      match splitFirst sep rest with
      | some pq => some (c :: pq.1, pq.2)
      | none => none

/-- Left-to-right scan for an occurrence of `sep` (non-empty in all uses). -/
def containsTok (sep : List Char) : List Char → Bool
  | [] => false
  | c :: rest => isPrefixB sep (c :: rest) || containsTok sep rest

/-- The prefix of `s` before the first occurrence of `sep` (all of `s` when
`sep` does not occur). -/
def upToFirst (sep : List Char) : List Char → List Char
  | [] => []
  | c :: rest => if isPrefixB sep (c :: rest) then [] else c :: upToFirst sep rest

/-- The literal separator `" for "` of gpt.py:191,193. -/
def sepFor : List Char := (" for ").toList

/-- The name/gender derivation of `parser_html` (gpt.py:191,193):
`split(" for ")[0]` and `split(" for ")[1]`.  Returns `none` when the list
produced by the split has a single element, i.e. when `" for "` is absent from
the title, in which case the Python code raises `IndexError` and the extraction of the page fails. -/
def extractNameGender (title : List Char) : Option (List Char × List Char) :=
  match splitFirst sepFor title with
  | none => none
  | some nr =>
    match splitFirst sepFor nr.2 with
    | none => some (nr.1, nr.2)
    | some gq => some (nr.1, gq.1)

/-! ## Image identifier (gpt.py:197)

The source builds
`f"https://fimgs.net/mdimg/perfume-thumbs/375x500.{url.split('/')[-1].split('-')[-1][:-5]}.jpg"`:
the final path component (after the last `/`), then the segment after the last
`-`, with the last five characters (the fixed `.html` suffix) cut off by the
`[:-5]` slice.  No numeric check of any kind is performed and no failure path
exists: the f-string always completes. -/

/-- Python `s.split(t)[-1]` for a one-character separator `t`: the suffix after
the last occurrence of `t` (all of `s` when `t` is absent). -/
def lastSeg (t : Char) (s : List Char) : List Char :=
  ((s.reverse).takeWhile (fun c => c ≠ t)).reverse

/-- Python `s[:-5]`: all but the last five characters (empty when `s` has five
or fewer). -/
def pyDropLast5 (s : List Char) : List Char := s.take (s.length - 5)

/-- The image identifier interpolated into the thumbnail URL (gpt.py:197). -/
def imageId (url : List Char) : List Char :=
  pyDropLast5 (lastSeg '-' (lastSeg '/' url))

/-- The full `img_url` field of the assembled record (gpt.py:197). -/
def img_url (url : List Char) : List Char :=
  ("https://fimgs.net/mdimg/perfume-thumbs/375x500.").toList ++ imageId url ++ (".jpg").toList

/-! ## Batch loop (gpt.py:242-296)

The `__main__` loop iterates over the hard-coded url list.  For each url it
saves the page, runs `parser_html`, and then checks the temporary JSON: if the
parser produced no JSON file, or the JSON has no `brand`, the script prints an
error, removes the temp directory and calls `exit()` — terminating the whole
process, so no later url is visited and no error list is kept.  (An uncaught
exception inside `parser_html` likewise aborts the whole run.)  The per-page
outcome is abstracted below; `runBatch` returns the ids of the pages that were
fully processed together with the url at which the run aborted, if any. -/

inductive PageOutcome where
  | ok : PageOutcome
  | noJson : PageOutcome
  | noBrand : PageOutcome
deriving DecidableEq

/-- The `__main__` batch loop: on the first page whose outcome is not `ok`,
the script exits; pages before it are fully processed, pages after it are
never visited. -/
def runBatch : List (String × PageOutcome) → List String × Option String
  | [] => ([], none)
  | p :: rest =>
    match p.2 with
    | PageOutcome.ok =>
      let r := runBatch rest
      (p.1 :: r.1, r.2)
    | _ => ([], some p.1)

/-! ## Occasion/season extractor (gpt.py:141-152)

For every rating row the source reads the text of the label span and the
`style` attribute of the bar (`.get("style","")`, so a missing attribute yields `""`),
extracts the `width` token with
`re.search(r"width\s*:\s*([^;]+)", style, re.I)`, sets
`width = m.group(1).strip() if m else None`, and then unconditionally stores
`ideal_times[t_name] = width`.  The regex search succeeds at a position
exactly when, after `width`, optional whitespace and `:`, the text before the
next `;` (or the end) is non-empty; `group(1).strip()` equals that segment
stripped (backtracking of the inner `\s*` only moves whitespace into the
group, which the `strip` removes again). -/

/-- Try the pattern `width\s*:\s*([^;]+)` (case-insensitive) anchored at the
head of `s`; returns the raw group before stripping. -/
def matchWidthAt (s : List Char) : Option (List Char) :=
  match s with
  | c1 :: c2 :: c3 :: c4 :: c5 :: rest =>
    if lowerC c1 = 'w' && lowerC c2 = 'i' && lowerC c3 = 'd' && lowerC c4 = 't' && lowerC c5 = 'h' then
      match rest.dropWhile pyWs with
      | ':' :: t2 =>
        let u := t2.takeWhile (fun c => c ≠ ';')
        if u.isEmpty then none else some u
      | _ => none
    else none
  | _ => none

/-- Model of `re.search`: scan left to right for the first position where the pattern
matches; the stored value is `m.group(1).strip()`. -/
def findWidth : List Char → Option (List Char)
  | [] => none
  | c :: rest =>
    match matchWidthAt (c :: rest) with
    | some u => some (pyStrip u)
    | none => findWidth rest

/-- Insertion-ordered Python `dict` assignment `d[k] = v`. -/
def dinsert {α : Type} (d : List (String × α)) (k : String) (v : α) :
    List (String × α) :=
  if d.any (fun p => p.1 = k) then d.map (fun p => if p.1 = k then (p.1, v) else p)
  else d ++ [(k, v)]

/-- The `ideal_times` loop of gpt.py:141-152 over the rating rows, each row
given as (label text, style attribute text).  Every row contributes its key;
the value is the stripped width token, or `None` when the regex found no
match. -/
def extractTimes (rows : List (String × List Char)) : List (String × Option (List Char)) :=
  rows.foldl (fun d row => dinsert d row.1 (findWidth row.2)) []

/-- First-match association-list lookup (Python `dict` access). -/
def alookup {α : Type} (k : String) : List (String × α) → Option α
  | [] => none
  | p :: rest => if p.1 = k then some p.2 else alookup k rest

/-! ## Note-pyramid segmenter (gpt.py:155-187)

`elements` is the list of tag names of all descendants of the pyramid
container, in document order; `indices_h4` their positions whose tag is `h4`.
The `try` block reads `indices_h4[0] / [1] / [2]` and counts `span` tags in
the Python slices `elements[h4[0]:h4[1]]`, `elements[h4[1]:h4[2]]`,
`elements[h4[2]:]`; it raises `IndexError` exactly when fewer than three `h4`
positions exist, in which case the bare `except` falls back to
`top = len(indices_a)` (the number of `a` tags), `middle = base = 0`.
The flat token list `total_notes` keeps the non-empty note texts; the tiers
are the slices `total_notes[:top]`,
`total_notes[top:top+middle] if middle != 0 else []` and
`total_notes[-base:] if base != 0 else []`. -/

/-- The list comprehension `[indice for indice, elemento in enumerate(elements) if elemento == tag]`,
starting the enumeration at `i`. -/
def indicesOfAux (tag : String) : List String → Nat → List Nat
  | [], _ => []
  | x :: rest, i =>
    if x = tag then i :: indicesOfAux tag rest (i + 1) else indicesOfAux tag rest (i + 1)

def indicesOf (tag : String) (l : List String) : List Nat := indicesOfAux tag l 0

/-- The `(top, middle, base)` span counts of gpt.py:166-174, including the
bare-`except` fallback taken when fewer than three `h4` markers exist. -/
def tierCounts (elements : List String) : Nat × Nat × Nat :=
  match indicesOf "h4" elements with
  | i0 :: i1 :: i2 :: _ =>
    (((elements.take i1).drop i0).count "span",
     ((elements.take i2).drop i1).count "span",
     (elements.drop i2).count "span")
  | _ => ((indicesOf "a" elements).length, 0, 0)

/-- The `notes_final` slicing of gpt.py:176-187: filter out empty texts, then
cut the flat list by the tier counts (`total_notes[:top]`,
`total_notes[top:top+middle]` guarded by `middle != 0`, `total_notes[-base:]`
guarded by `base != 0`). -/
def parserNotes (elements : List String) (noteTexts : List String) :
    List String × List String × List String :=
  let total := noteTexts.filter (fun t => t ≠ "")
  let c := tierCounts elements
  (total.take c.1,
   if c.2.1 ≠ 0 then (total.drop c.1).take c.2.1 else [],
   if c.2.2 ≠ 0 then total.drop (total.length - c.2.2) else [])

/-! ## Percentage parser (`pct_to_float`, build_catalog.py:44-52 and
upload_data.py:31-38)

`pct_to_float(x)` returns `None` for `None`, otherwise strips the string,
deletes every `%`, and returns `round(float(s), 4)`, with any exception
mapped to `None`.  It performs no `width:` extraction of its own — a CSS
declaration such as `"width: 42.5%;"` fails `float()` and yields `None`.
`float` is modelled on the decimal fragment it is fed in this program
(optional sign, digits with at most one point, optional exponent, surrounding
whitespace); the exotic literals Python also accepts (`inf`, `nan`, digit
underscores, hex) never reach it here.  Values are modelled as `ℚ`, exact for
every decimal literal; `round` is the Python 3 round-half-to-even. -/

def digitsToNat (l : List Char) : Nat := l.foldl (fun a c => 10 * a + (c.toNat - 48)) 0

def parseExpDigits (sg : Int) (l : List Char) : Option Int :=
  if l.isEmpty then none
  else if l.all isDigitC then some (sg * (digitsToNat l : Int)) else none

def parseExp : List Char → Option Int
  | '+' :: r => parseExpDigits 1 r
  | '-' :: r => parseExpDigits (-1) r
  | r => parseExpDigits 1 r

/-- Unsigned part of a Python float literal: `digits`, `digits.`, `.digits`,
`digits.digits`, optionally followed by an exponent. -/
def parseUnsigned (l : List Char) : Option ℚ :=
  let ip := l.takeWhile isDigitC
  let r1 := l.dropWhile isDigitC
  match r1 with
  | [] => if ip.isEmpty then none else some (digitsToNat ip : ℚ)
  | c :: r2 =>
    if c = '.' then
      let fp := r2.takeWhile isDigitC
      let r3 := r2.dropWhile isDigitC
      if ip.isEmpty && fp.isEmpty then none
      else
        let mant : ℚ := (digitsToNat ip : ℚ) + (digitsToNat fp : ℚ) / (10 : ℚ) ^ fp.length
        match r3 with
        | [] => some mant
        | d :: r4 =>
          if d = 'e' ∨ d = 'E' then (parseExp r4).map (fun e => mant * (10 : ℚ) ^ e)
          else none
    else if c = 'e' ∨ c = 'E' then
      if ip.isEmpty then none
      else (parseExp r2).map (fun e => (digitsToNat ip : ℚ) * (10 : ℚ) ^ e)
    else none

/-- Python `float(s)` on the decimal fragment: strip whitespace, optional
sign, unsigned literal; `none` models a raised `ValueError`. -/
def pyFloat (s : List Char) : Option ℚ :=
  match pyStrip s with
  | [] => none
  | c :: r =>
    if c = '+' then parseUnsigned r
    else if c = '-' then (parseUnsigned r).map (fun q => -q)
    else parseUnsigned (c :: r)

/-- Round half to even to an integer (Python 3 `round` tie-breaking). -/
def rndHalfEven (q : ℚ) : Int :=
  let f := ⌊q⌋
  let r := q - (f : ℚ)
  if r < 1/2 then f
  else if 1/2 < r then f + 1
  else if 2 ∣ f then f else f + 1

/-- Python `round(q, 4)`. -/
def pyRound4 (q : ℚ) : ℚ := (rndHalfEven (q * 10000) : ℚ) / 10000

/-- Function `pct_to_float` (identical bodies in build_catalog.py:44-52 and
upload_data.py:31-38). -/
def pct_to_float : Option (List Char) → Option ℚ
  | none => none
  | some x =>
    let s := (pyStrip x).filter (fun c => c ≠ '%')
    match pyFloat s with
    | some v => some (pyRound4 v)
    | none => none

/-! ## The six-bucket times projection (build_catalog.py:106-111 and
upload_data.py:61-66)

Both consumers build their `times` mapping by looping over the fixed list
`["winter","spring","summer","fall","day","night"]`, applying `pct_to_float`
to `times_obj.get(k)` (where `times_obj` is the scraped `ideal_times` whose
values are width strings or null), and keeping the key only when the parse
succeeded.  Keys of `ideal_times` outside the six exact strings are never
looked at. -/

def buckets : List String := ["winter", "spring", "summer", "fall", "day", "night"]

/-- Times loop of `build_items` (build_catalog.py:106-111).  The value of a
`times_obj` entry is `some s` for a JSON string `s` and `none` for JSON null;
`.get(k)` yields `None` both for an absent key and a null value, modelled by
joining the two option layers. -/
def build_items_times (timesObj : List (String × Option (List Char))) :
    List (String × ℚ) :=
  buckets.foldl (fun d k =>
    match pct_to_float ((alookup k timesObj).bind id) with
    | some v => d ++ [(k, v)]
    | none => d) []

/-- Times loop of `normalize_record` (upload_data.py:61-66); the body is a
verbatim duplicate of the one in build_catalog.py. -/
def normalize_record_times (timesObj : List (String × Option (List Char))) :
    List (String × ℚ) :=
  buckets.foldl (fun d k =>
    match pct_to_float ((alookup k timesObj).bind id) with
    | some v => d ++ [(k, v)]
    | none => d) []

/-! ## `times` facet with threshold buckets (build_catalog.py:173-194)

`build_facets` initialises `f_times_thresh = {k:{} for k in
["winter",...,"night"]}` and then, for each item in catalog order, for each
`(bucket, pct)` of the `times` dict of the item and each threshold in
`[50,70,80,90]`, appends the id of the item to
`f_times_thresh[bucket].setdefault(f">={th}", [])` whenever `pct >= th`.
The outer access `f_times_thresh[bucket]` would raise `KeyError` for a bucket
outside the six; items produced by `build_items` only ever carry the six keys
(see `times_foldl_keys`), which the theorems assume as a hypothesis.  A
catalog item is reduced to the two fields this code reads. -/

structure CatItem where
  id : String
  times : List (String × ℚ)

/-- The four threshold/label pairs produced by `thresholds = [50,70,80,90]`
and the f-string `f">={th}"`. -/
def thrPairs : List (Nat × String) := [(50, ">=50"), (70, ">=70"), (80, ">=80"), (90, ">=90")]

/-- Python `d.setdefault(k, []).append(pid)` on an insertion-ordered dict. -/
def innerApp : List (String × List String) → String → String → List (String × List String)
  | [], k, pid => [(k, [pid])]
  | p :: rest, k, pid =>
    if p.1 = k then (p.1, p.2 ++ [pid]) :: rest else p :: innerApp rest k pid

/-- The inner `for th in thresholds` loop for one `(bucket, pct)` entry. -/
def applyThr (inner : List (String × List String)) (v : ℚ) (pid : String) :
    List (String × List String) :=
  thrPairs.foldl (fun d p => if (p.1 : ℚ) ≤ v then innerApp d p.2 pid else d) inner

/-- Mutation of the outer dict at key `b` (`f_times_thresh[bucket]`). -/
def updBucket (outer : List (String × List (String × List String))) (b : String)
    (f : List (String × List String) → List (String × List String)) :
    List (String × List (String × List String)) :=
  outer.map (fun p => if p.1 = b then (p.1, f p.2) else p)

def stepEntry (pid : String) (outer : List (String × List (String × List String)))
    (kv : String × ℚ) : List (String × List (String × List String)) :=
  updBucket outer kv.1 (fun inner => applyThr inner kv.2 pid)

def stepItem (outer : List (String × List (String × List String))) (it : CatItem) :
    List (String × List (String × List String)) :=
  it.times.foldl (stepEntry it.id) outer

/-- The `times` member of the `build_facets` result (build_catalog.py:175-186,
returned at line 193). -/
def timesFacet (items : List CatItem) : List (String × List (String × List String)) :=
  items.foldl stepItem (buckets.map (fun b => (b, [])))

/-- Read the id list stored under bucket `b` and threshold label `lbl`
(absent key reads as the empty list, matching `setdefault(-, [])`). -/
def tGet (outer : List (String × List (String × List String))) (b lbl : String) :
    List String :=
  match alookup b outer with
  | some inner => (alookup lbl inner).getD []
  | none => []

/-- Does item `it` have a score for bucket `b` reaching threshold `th`? -/
def qualifiesB (b : String) (th : Nat) (it : CatItem) : Bool :=
  match alookup b it.times with
  | some v => decide ((th : ℚ) ≤ v)
  | none => false

/-- All six bucket keys are present in the outer dict (the loop would raise
`KeyError` otherwise). -/
def sixPresent (outer : List (String × List (String × List String))) : Prop :=
  ∀ b ∈ buckets, (alookup b outer).isSome = true

/-! ## Lemmas and claim theorems -/

theorem dropWhile_eq_self_of_not {p : Char → Bool} {l : List Char}
    (h : ∀ c ∈ l, p c = false) : l.dropWhile p = l := by
  cases l with
  | nil => rfl
  | cons c rest =>
    rw [List.dropWhile_cons, h c (by simp)]
    simp

theorem pyStrip_eq_self_of_not {l : List Char}
    (h : ∀ c ∈ l, pyWs c = false) : pyStrip l = l := by
  unfold pyStrip
  rw [dropWhile_eq_self_of_not h, dropWhile_eq_self_of_not, List.reverse_reverse]
  intro c hc
  exact h c (List.mem_reverse.mp hc)

theorem filter_eq_self_of_all {p : Char → Bool} {l : List Char}
    (h : ∀ c ∈ l, p c = true) : l.filter p = l := by
  induction l with
  | nil => rfl
  | cons c rest ih =>
    rw [List.filter_cons, if_pos (h c (by simp))]
    rw [ih (fun x hx => h x (by simp [hx]))]

theorem map_eq_self_of_fix {f : Char → Char} {l : List Char}
    (h : ∀ c ∈ l, f c = c) : l.map f = l := by
  induction l with
  | nil => rfl
  | cons c rest ih =>
    rw [List.map_cons, h c (by simp), ih (fun x hx => h x (by simp [hx]))]

theorem takeWhile_eq_self_of_all {p : Char → Bool} {l : List Char}
    (h : ∀ c ∈ l, p c = true) : l.takeWhile p = l := by
  induction l with
  | nil => rfl
  | cons c rest ih =>
    rw [List.takeWhile_cons, h c (by simp)]
    simp [ih (fun x hx => h x (by simp [hx]))]

theorem dropWhile_eq_nil_of_all {p : Char → Bool} {l : List Char}
    (h : ∀ c ∈ l, p c = true) : l.dropWhile p = [] := by
  induction l with
  | nil => rfl
  | cons c rest ih =>
    rw [List.dropWhile_cons, h c (by simp)]
    exact ih (fun x hx => h x (by simp [hx]))

theorem collapseRuns_all {p : Char → Bool} {r : Char} {q : Char → Bool}
    (hr : q r = true) :
    ∀ (l : List Char) (flag : Bool),
      (∀ c ∈ l, p c = false → q c = true) →
      ∀ c ∈ collapseRuns p r l flag, q c = true := by
  intro l
  induction l with
  | nil => intro flag _ c hc; simp [collapseRuns] at hc
  | cons x rest ih =>
    intro flag h c hc
    rw [collapseRuns] at hc
    by_cases hx : p x = true
    · rw [if_pos hx] at hc
      cases flag with
      | true =>
        simp only [if_pos rfl] at hc
        exact ih true (fun d hd => h d (by simp [hd])) c hc
      | false =>
        simp only [Bool.false_eq_true, if_neg] at hc
        rcases List.mem_cons.mp hc with h1 | h1
        · rw [h1]; exact hr
        · exact ih true (fun d hd => h d (by simp [hd])) c h1
    · rw [if_neg hx] at hc
      rcases List.mem_cons.mp hc with h1 | h1
      · rw [h1]; exact h x (by simp) (by simpa using hx)
      · exact ih false (fun d hd => h d (by simp [hd])) c h1

theorem collapseRuns_eq_self_of_no_p {p : Char → Bool} {r : Char} :
    ∀ (l : List Char) (flag : Bool),
      (∀ c ∈ l, p c = false) → collapseRuns p r l flag = l := by
  intro l
  induction l with
  | nil => intro flag _; rfl
  | cons x rest ih =>
    intro flag h
    rw [collapseRuns, if_neg (by simp [h x (by simp)])]
    rw [ih false (fun d hd => h d (by simp [hd]))]

theorem noDoubleHyphen_cons {x : Char} {m : List Char}
    (hm : noDoubleHyphen m = true)
    (hx : x = '-' → m.head? ≠ some '-') : noDoubleHyphen (x :: m) = true := by
  cases m with
  | nil => rfl
  | cons y m2 =>
    rw [noDoubleHyphen]
    simp only [Bool.and_eq_true]
    refine ⟨?_, hm⟩
    by_cases h1 : x = '-'
    · have := hx h1
      simp only [List.head?] at this
      have hy : ¬ y = '-' := fun hy2 => this (by rw [hy2])
      simp [hy]
    · simp [h1]

theorem collapseHyp_noDouble :
    ∀ l : List Char,
      noDoubleHyphen (collapseRuns isHyp '-' l false) = true ∧
      (noDoubleHyphen (collapseRuns isHyp '-' l true) = true ∧
        (collapseRuns isHyp '-' l true).head? ≠ some '-') := by
  intro l
  induction l with
  | nil => exact ⟨rfl, rfl, by simp [collapseRuns]⟩
  | cons x rest ih =>
    obtain ⟨ihf, iht, ihh⟩ := ih
    by_cases hx : isHyp x = true
    · have hxh : x = '-' := by simpa [isHyp] using hx
      constructor
      · rw [collapseRuns, if_pos hx]
        simp only [Bool.false_eq_true, if_neg]
        exact noDoubleHyphen_cons iht (fun _ => ihh)
      · constructor
        · rw [collapseRuns, if_pos hx]
          simpa using iht
        · rw [collapseRuns, if_pos hx]
          simpa using ihh
    · have hxh : ¬ x = '-' := by simpa [isHyp] using hx
      refine ⟨?_, ?_, ?_⟩
      · rw [collapseRuns, if_neg hx]
        exact noDoubleHyphen_cons ihf (fun h => absurd h hxh)
      · rw [collapseRuns, if_neg hx]
        exact noDoubleHyphen_cons ihf (fun h => absurd h hxh)
      · rw [collapseRuns, if_neg hx]
        simp [hxh]

/-- Character-set invariant of `to_slug`: only lowercase alphanumerics and
hyphens survive, and hyphen runs are collapsed. -/
theorem to_slug_shape (s : List Char) :
    (∀ c ∈ to_slug s, (isLowerAl c || isDigitC c || c = '-') = true) ∧
    noDoubleHyphen (to_slug s) = true := by
  constructor
  · intro c hc
    unfold to_slug at hc
    refine collapseRuns_all (q := fun c => isLowerAl c || isDigitC c || c = '-')
      (by simp) _ false ?_ c hc
    intro d hd _
    have hd2 := collapseRuns_all (p := pyWs) (r := '-')
      (q := fun c => isLowerAl c || isDigitC c || c = '-') (by simp)
      _ false ?_ d hd
    · exact hd2
    · intro e he hew
      have hk : isKeep e = true := List.of_mem_filter he
      unfold isKeep at hk
      rcases Bool.or_eq_true_iff.mp hk with h1 | h1
      · rcases Bool.or_eq_true_iff.mp h1 with h2 | h2
        · rcases Bool.or_eq_true_iff.mp h2 with h3 | h3
          · simp [h3]
          · simp [h3]
        · rw [h2] at hew; cases hew
      · simp [h1]
  · unfold to_slug
    exact (collapseHyp_noDouble _).1

theorem lowerC_eq_self_of_slugchar {c : Char}
    (h : (isLowerAl c || isDigitC c || c = '-') = true) : lowerC c = c := by
  unfold lowerC
  rw [if_neg]
  intro hcon
  simp only [Bool.and_eq_true, decide_eq_true_eq] at hcon
  rcases Bool.or_eq_true_iff.mp h with h1 | h1
  · rcases Bool.or_eq_true_iff.mp h1 with h2 | h2
    · unfold isLowerAl at h2
      simp only [Bool.and_eq_true, decide_eq_true_eq] at h2
      omega
    · unfold isDigitC at h2
      simp only [Bool.and_eq_true, decide_eq_true_eq] at h2
      omega
  · have : c = '-' := by simpa using h1
    rw [this] at hcon
    revert hcon
    decide

theorem slugchar_not_ws {c : Char}
    (h : (isLowerAl c || isDigitC c || c = '-') = true) : pyWs c = false := by
  rcases Bool.or_eq_true_iff.mp h with h1 | h1
  · rcases Bool.or_eq_true_iff.mp h1 with h2 | h2
    · unfold isLowerAl at h2
      unfold pyWs
      simp only [Bool.and_eq_true, decide_eq_true_eq] at h2
      simp only [Bool.or_eq_false_iff, decide_eq_false_iff_not]
      omega
    · unfold isDigitC at h2
      unfold pyWs
      simp only [Bool.and_eq_true, decide_eq_true_eq] at h2
      simp only [Bool.or_eq_false_iff, decide_eq_false_iff_not]
      omega
  · have : c = '-' := by simpa using h1
    rw [this]
    decide

theorem slugchar_keep {c : Char}
    (h : (isLowerAl c || isDigitC c || c = '-') = true) : isKeep c = true := by
  unfold isKeep
  rcases Bool.or_eq_true_iff.mp h with h1 | h1
  · rcases Bool.or_eq_true_iff.mp h1 with h2 | h2
    · simp [h2]
    · simp [h2]
  · simp [h1]

/-- On a hyphen-collapsed list the second `re.sub(r"-+","-")` pass is the
identity. -/
theorem collapseHyp_eq_self :
    ∀ l : List Char, noDoubleHyphen l = true →
      collapseRuns isHyp '-' l false = l ∧
      (l.head? ≠ some '-' → collapseRuns isHyp '-' l true = l) := by
  intro l
  induction l with
  | nil => exact fun _ => ⟨rfl, fun _ => rfl⟩
  | cons x rest ih =>
    intro h
    have hrest : noDoubleHyphen rest = true := by
      cases rest with
      | nil => rfl
      | cons y r2 =>
        rw [noDoubleHyphen] at h
        simp only [Bool.and_eq_true] at h
        exact h.2
    have hpair : x = '-' → rest.head? ≠ some '-' := by
      intro hx
      cases rest with
      | nil => simp
      | cons y r2 =>
        rw [noDoubleHyphen] at h
        simp only [Bool.and_eq_true] at h
        have h1 := h.1
        intro hy
        simp only [List.head?, Option.some.injEq] at hy
        rw [hx, hy] at h1
        simp at h1
    obtain ⟨ihf, iht⟩ := ih hrest
    constructor
    · by_cases hx : x = '-'
      · rw [collapseRuns, if_pos (by simp [isHyp, hx])]
        rw [hx, iht (hpair hx)]
        simp
      · rw [collapseRuns, if_neg (by simp [isHyp, hx])]
        rw [ihf]
    · intro hhead
      have hx : ¬ x = '-' := by
        intro hx2
        exact hhead (by simp [List.head?, hx2])
      rw [collapseRuns, if_neg (by simp [isHyp, hx])]
      rw [ihf]

theorem splitFirst_eq_none_of_not_contains {sep : List Char} :
    ∀ l : List Char, containsTok sep l = false → splitFirst sep l = none := by
  intro l
  induction l with
  | nil => intro _; rfl
  | cons c rest ih =>
    intro h
    rw [containsTok, Bool.or_eq_false_iff] at h
    rw [splitFirst, if_neg (by simp [h.1]), ih h.2]

theorem upToFirst_eq_self_of_none {sep : List Char} :
    ∀ l : List Char, splitFirst sep l = none → upToFirst sep l = l := by
  intro l
  induction l with
  | nil => intro _; rfl
  | cons c rest ih =>
    intro h
    rw [splitFirst] at h
    by_cases hp : isPrefixB sep (c :: rest) = true
    · rw [if_pos hp] at h; cases h
    · rw [if_neg hp] at h
      rw [upToFirst, if_neg hp]
      cases hr : splitFirst sep rest with
      | none => rw [ih hr]
      | some pq => rw [hr] at h; cases h

theorem splitFirst_fst_eq_upToFirst {sep : List Char} :
    ∀ {l pre post : List Char}, splitFirst sep l = some (pre, post) →
      pre = upToFirst sep l := by
  intro l
  induction l with
  | nil => intro pre post h; cases h
  | cons c rest ih =>
    intro pre post h
    rw [splitFirst] at h
    by_cases hp : isPrefixB sep (c :: rest) = true
    · rw [if_pos hp] at h
      rw [upToFirst, if_pos hp]
      cases h
      rfl
    · rw [if_neg hp] at h
      rw [upToFirst, if_neg hp]
      cases hr : splitFirst sep rest with
      | none => rw [hr] at h; cases h
      | some pq =>
        rw [hr] at h
        cases h
        rw [ih hr]

theorem isPrefixB_append : ∀ s t : List Char, isPrefixB s (s ++ t) = true := by
  intro s t
  induction s with
  | nil => rfl
  | cons a as ih => simp [isPrefixB, ih]

theorem drop_length_append : ∀ s t : List Char, (s ++ t).drop s.length = t := by
  intro s
  induction s with
  | nil => intro t; rfl
  | cons a as ih => intro t; simp [ih]

/-- Scanner correctness: when no occurrence of `sep` starts inside the prefix
`a`, the first occurrence of `sep` in `a ++ sep ++ b` is the explicit one. -/
theorem splitFirst_append {sep : List Char} (hsep : sep ≠ []) :
    ∀ a b : List Char,
      (∀ i, i < a.length → isPrefixB sep (List.drop i (a ++ sep ++ b)) = false) →
      splitFirst sep (a ++ sep ++ b) = some (a, b) := by
  intro a
  induction a with
  | nil =>
    intro b _
    simp only [List.nil_append]
    cases hs : sep with
    | nil => exact absurd hs hsep
    | cons sc sr =>
      rw [← hs]
      have hne : sep ++ b ≠ [] := by
        intro hcon
        exact hsep (List.append_eq_nil.mp hcon).1
      cases hsb : sep ++ b with
      | nil => exact absurd hsb hne
      | cons c rest =>
        rw [splitFirst, ← hsb, if_pos (isPrefixB_append sep b)]
        rw [drop_length_append]
  | cons x a2 ih =>
    intro b h
    have h0 := h 0 (by simp)
    simp only [List.drop_zero] at h0
    have hx : (x :: a2) ++ sep ++ b = x :: (a2 ++ sep ++ b) := by simp
    rw [hx]
    rw [hx] at h0
    rw [splitFirst, if_neg (by simp only [h0]; simp)]
    rw [ih b (fun i hi => by
      have := h (i + 1) (by simpa using Nat.succ_lt_succ hi)
      rw [hx] at this
      simpa using this)]

theorem takeWhile_append_of_all {p : Char → Bool} :
    ∀ {x : List Char} (y : List Char), (∀ c ∈ x, p c = true) →
      (x ++ y).takeWhile p = x ++ y.takeWhile p := by
  intro x
  induction x with
  | nil => intro y _; rfl
  | cons a as ih =>
    intro y h
    rw [List.cons_append, List.takeWhile_cons, h a (by simp)]
    simp [ih y (fun c hc => h c (by simp [hc]))]

theorem takeWhile_cons_of_neg {p : Char → Bool} {c : Char} (l : List Char)
    (h : p c = false) : (c :: l).takeWhile p = [] := by
  rw [List.takeWhile_cons, h]
  simp

theorem take_length_append : ∀ s t : List Char, (s ++ t).take s.length = s := by
  intro s
  induction s with
  | nil => intro t; rfl
  | cons a as ih => intro t; simp [ih]

theorem dinsert_fresh {α : Type} {d : List (String × α)} {k : String} {v : α}
    (h : ∀ p ∈ d, p.1 ≠ k) : dinsert d k v = d ++ [(k, v)] := by
  unfold dinsert
  rw [if_neg]
  intro hcon
  rw [List.any_eq_true] at hcon
  obtain ⟨p, hp, hpk⟩ := hcon
  exact h p hp (by simpa using hpk)

theorem extractTimes_foldl_fresh :
    ∀ (rows : List (String × List Char)) (d : List (String × Option (List Char))),
      (rows.map Prod.fst).Nodup →
      (∀ r ∈ rows, ∀ p ∈ d, p.1 ≠ r.1) →
      rows.foldl (fun d row => dinsert d row.1 (findWidth row.2)) d =
        d ++ rows.map (fun row => (row.1, findWidth row.2)) := by
  intro rows
  induction rows with
  | nil => intro d _ _; simp
  | cons r rest ih =>
    intro d hnd hfresh
    rw [List.foldl_cons]
    rw [dinsert_fresh (fun p hp => hfresh r (by simp) p hp)]
    rw [List.map_cons] at hnd
    have hnd2 := List.nodup_cons.mp hnd
    rw [ih (d ++ [(r.1, findWidth r.2)]) hnd2.2 ?_]
    · simp
    · intro s hs p hp
      rcases List.mem_append.mp hp with h1 | h1
      · exact hfresh s (by simp [hs]) p h1
      · have : p = (r.1, findWidth r.2) := by simpa using h1
        rw [this]
        intro hcon
        simp only at hcon
        exact hnd2.1 (by
          rw [hcon]
          exact List.mem_map.mpr ⟨s, hs, rfl⟩)

theorem rndHalfEven_intCast (z : Int) : rndHalfEven (z : ℚ) = z := by
  unfold rndHalfEven
  rw [Int.floor_intCast]
  rw [if_pos]
  rw [sub_self]
  norm_num

theorem pyRound4_intCast (z : Int) : pyRound4 (z : ℚ) = z := by
  unfold pyRound4
  have h1 : (z : ℚ) * 10000 = ((z * 10000 : Int) : ℚ) := by push_cast; ring
  rw [h1, rndHalfEven_intCast]
  push_cast
  field_simp

theorem pyRound4_natCast (n : Nat) : pyRound4 (n : ℚ) = n := by
  have h := pyRound4_intCast (n : Int)
  push_cast at h
  exact h

theorem digit_not_ws {c : Char} (h : isDigitC c = true) : pyWs c = false := by
  unfold isDigitC at h
  unfold pyWs
  simp only [Bool.and_eq_true, decide_eq_true_eq] at h
  simp only [Bool.or_eq_false_iff, decide_eq_false_iff_not]
  omega

theorem digit_ne {c x : Char} (hx : isDigitC x = false) (h : isDigitC c = true) :
    ¬ c = x := by
  intro hc
  rw [hc] at h
  rw [h] at hx
  cases hx

theorem pyFloat_digits {ds : List Char} (hne : ds ≠ [])
    (hall : ∀ c ∈ ds, isDigitC c = true) :
    pyFloat ds = some (digitsToNat ds : ℚ) := by
  have hws : ∀ c ∈ ds, pyWs c = false := fun c hc => digit_not_ws (hall c hc)
  have hstrip : pyStrip ds = ds := pyStrip_eq_self_of_not hws
  have hpu : parseUnsigned ds = some (digitsToNat ds : ℚ) := by
    unfold parseUnsigned
    rw [takeWhile_eq_self_of_all hall, dropWhile_eq_nil_of_all hall]
    simp [hne]
  cases ds with
  | nil => exact absurd rfl hne
  | cons c r =>
    have hc := hall c (by simp)
    have h1 : pyFloat (c :: r) =
        (if c = '+' then parseUnsigned r
         else if c = '-' then Option.map (fun q => -q) (parseUnsigned r)
         else parseUnsigned (c :: r)) := by
      unfold pyFloat
      rw [hstrip]
    rw [h1, if_neg (digit_ne (by decide) hc), if_neg (digit_ne (by decide) hc)]
    exact hpu

theorem pct_to_float_digits {ds : List Char} (hne : ds ≠ [])
    (hall : ∀ c ∈ ds, isDigitC c = true) :
    pct_to_float (some ds) = some (digitsToNat ds : ℚ) ∧
    pct_to_float (some (ds ++ ['%'])) = some (digitsToNat ds : ℚ) := by
  have hnp : ∀ c ∈ ds, (fun c => decide (c ≠ '%')) c = true := by
    intro c hc
    simp only [decide_eq_true_eq]
    exact digit_ne (by decide) (hall c hc)
  have hbody : ∀ y : List Char, pct_to_float (some y) =
      (match pyFloat ((pyStrip y).filter (fun c => decide (c ≠ '%'))) with
       | some v => some (pyRound4 v)
       | none => none) := fun _ => rfl
  constructor
  · rw [hbody]
    rw [pyStrip_eq_self_of_not (fun c hc => digit_not_ws (hall c hc))]
    rw [filter_eq_self_of_all hnp]
    rw [pyFloat_digits hne hall]
    show some (pyRound4 (digitsToNat ds : ℚ)) = some (digitsToNat ds : ℚ)
    rw [pyRound4_natCast]
  · rw [hbody]
    have hstrip2 : pyStrip (ds ++ ['%']) = ds ++ ['%'] := by
      refine pyStrip_eq_self_of_not ?_
      intro c hc
      rcases List.mem_append.mp hc with h1 | h1
      · exact digit_not_ws (hall c h1)
      · have hcp : c = '%' := by simpa using h1
        rw [hcp]; rfl
    rw [hstrip2]
    rw [List.filter_append, filter_eq_self_of_all hnp]
    have hpf : List.filter (fun c => decide (c ≠ '%')) ['%'] = [] := by rfl
    rw [hpf, List.append_nil]
    rw [pyFloat_digits hne hall]
    show some (pyRound4 (digitsToNat ds : ℚ)) = some (digitsToNat ds : ℚ)
    rw [pyRound4_natCast]

theorem times_foldl_keys :
    ∀ (ks : List String) (timesObj : List (String × Option (List Char)))
      (d : List (String × ℚ)),
      (∀ p ∈ d, p.1 ∈ buckets) →
      (∀ k ∈ ks, k ∈ buckets) →
      ∀ p ∈ ks.foldl (fun d k =>
          match pct_to_float ((alookup k timesObj).bind id) with
          | some v => d ++ [(k, v)]
          | none => d) d, p.1 ∈ buckets := by
  intro ks
  induction ks with
  | nil =>
    intro timesObj d hd hks p hp
    simp only [List.foldl_nil] at hp
    exact hd p hp
  | cons k rest ih =>
    intro timesObj d hd hks p hp
    rw [List.foldl_cons] at hp
    cases hmatch : pct_to_float ((alookup k timesObj).bind id) with
    | none =>
      rw [hmatch] at hp
      exact ih timesObj d hd (fun x hx => hks x (by simp [hx])) p hp
    | some v =>
      rw [hmatch] at hp
      refine ih timesObj (d ++ [(k, v)]) ?_ (fun x hx => hks x (by simp [hx])) p hp
      intro q hq
      rcases List.mem_append.mp hq with h1 | h1
      · exact hd q h1
      · have : q = (k, v) := by simpa using h1
        rw [this]
        exact hks k (by simp)

theorem times_foldl_drop {k : String} {v : Option (List Char)} :
    ∀ (ks : List String) (timesObj : List (String × Option (List Char)))
      (d : List (String × ℚ)),
      (∀ x ∈ ks, x ≠ k) →
      ks.foldl (fun d x =>
          match pct_to_float ((alookup x ((k, v) :: timesObj)).bind id) with
          | some w => d ++ [(x, w)]
          | none => d) d =
      ks.foldl (fun d x =>
          match pct_to_float ((alookup x timesObj).bind id) with
          | some w => d ++ [(x, w)]
          | none => d) d := by
  intro ks
  induction ks with
  | nil => intro timesObj d _; rfl
  | cons x rest ih =>
    intro timesObj d h
    rw [List.foldl_cons, List.foldl_cons]
    have hlk : alookup x ((k, v) :: timesObj) = alookup x timesObj := by
      rw [alookup, if_neg]
      intro hcon
      exact h x (by simp) (by simpa using hcon.symm)
    rw [hlk]
    exact ih timesObj _ (fun y hy => h y (by simp [hy]))

theorem alookup_innerApp (d : List (String × List String)) (k pid k' : String) :
    alookup k' (innerApp d k pid) =
      if k' = k then some (((alookup k d).getD []) ++ [pid]) else alookup k' d := by
  induction d with
  | nil =>
    by_cases h : k' = k
    · subst h
      simp [innerApp, alookup]
    · have h2 : ¬ k = k' := fun hc => h hc.symm
      simp [innerApp, alookup, h, h2]
  | cons p rest ih =>
    obtain ⟨pk, pv⟩ := p
    by_cases hpk : pk = k
    · subst hpk
      by_cases h : k' = pk
      · subst h
        simp [innerApp, alookup]
      · have h2 : ¬ pk = k' := fun hc => h hc.symm
        simp [innerApp, alookup, h, h2]
    · by_cases h : k' = k
      · subst h
        have h2 : ¬ pk = k' := hpk
        simp [innerApp, alookup, hpk, h2, ih]
      · by_cases hp : pk = k'
        · subst hp
          simp [innerApp, alookup, hpk, h, ih]
        · simp [innerApp, alookup, hpk, h, hp, ih]

theorem alookup_updBucket (outer : List (String × List (String × List String)))
    (b b' : String) (f : List (String × List String) → List (String × List String)) :
    alookup b' (updBucket outer b f) =
      if b' = b then (alookup b' outer).map f else alookup b' outer := by
  induction outer with
  | nil => simp [updBucket, alookup]
  | cons p rest ih =>
    obtain ⟨pk, pv⟩ := p
    have ih2 : alookup b' (updBucket rest b f) =
        if b' = b then (alookup b' rest).map f else alookup b' rest := ih
    by_cases hpb : pk = b
    · subst hpb
      by_cases h : b' = pk
      · subst h
        simp [updBucket, alookup]
      · have h2 : ¬ pk = b' := fun hc => h hc.symm
        simp only [updBucket, List.map_cons, if_pos rfl] at *
        simp [alookup, h, h2, ih2]
    · by_cases h : b' = b
      · subst h
        simp only [updBucket, List.map_cons] at *
        simp [alookup, hpb, ih2]
      · by_cases hp : pk = b'
        · subst hp
          simp only [updBucket, List.map_cons] at *
          simp [alookup, hpb, h, ih2]
        · simp only [updBucket, List.map_cons] at *
          simp [alookup, hpb, h, hp, ih2]

theorem alookup_ifApp_other {d : List (String × List String)} {l2 lbl pid : String}
    (h : ¬ lbl = l2) (c : Prop) [Decidable c] :
    alookup lbl (if c then innerApp d l2 pid else d) = alookup lbl d := by
  by_cases hc : c
  · rw [if_pos hc, alookup_innerApp, if_neg h]
  · rw [if_neg hc]

theorem alookup_ifApp_own (d : List (String × List String)) (lbl pid : String)
    (c : Prop) [Decidable c] :
    alookup lbl (if c then innerApp d lbl pid else d) =
      if c then some (((alookup lbl d).getD []) ++ [pid]) else alookup lbl d := by
  by_cases hc : c
  · rw [if_pos hc, if_pos hc, alookup_innerApp, if_pos rfl]
  · rw [if_neg hc, if_neg hc]

theorem applyThr_alookup (inner : List (String × List String)) (v : ℚ) (pid : String)
    (th : Nat) (lbl : String) (hmem : (th, lbl) ∈ thrPairs) :
    alookup lbl (applyThr inner v pid) =
      if (th : ℚ) ≤ v then some (((alookup lbl inner).getD []) ++ [pid])
      else alookup lbl inner := by
  simp only [thrPairs, List.mem_cons, List.not_mem_nil, or_false] at hmem
  rcases hmem with h | h | h | h <;>
    (rw [Prod.mk.injEq] at h
     obtain ⟨h1, h2⟩ := h
     subst h1
     subst h2) <;>
    simp only [applyThr, thrPairs, List.foldl_cons, List.foldl_nil]
  · rw [alookup_ifApp_other (by decide), alookup_ifApp_other (by decide),
      alookup_ifApp_other (by decide), alookup_ifApp_own]
  · rw [alookup_ifApp_other (by decide), alookup_ifApp_other (by decide),
      alookup_ifApp_own, alookup_ifApp_other (by decide)]
  · rw [alookup_ifApp_other (by decide), alookup_ifApp_own,
      alookup_ifApp_other (by decide), alookup_ifApp_other (by decide)]
  · rw [alookup_ifApp_own, alookup_ifApp_other (by decide),
      alookup_ifApp_other (by decide), alookup_ifApp_other (by decide)]

theorem sixPresent_updBucket {outer : List (String × List (String × List String))}
    {k : String} {f : List (String × List String) → List (String × List String)}
    (h : sixPresent outer) : sixPresent (updBucket outer k f) := by
  intro b hb
  rw [alookup_updBucket]
  by_cases hbk : b = k
  · rw [if_pos hbk]
    have h2 := h b hb
    cases halt : alookup b outer with
    | none => rw [halt] at h2; cases h2
    | some inner => simp
  · rw [if_neg hbk]
    exact h b hb

theorem sixPresent_entriesFold {pid : String} :
    ∀ (entries : List (String × ℚ)) (outer : List (String × List (String × List String))),
      sixPresent outer → sixPresent (entries.foldl (stepEntry pid) outer) := by
  intro entries
  induction entries with
  | nil => intro outer h; exact h
  | cons kv rest ih =>
    intro outer h
    rw [List.foldl_cons]
    exact ih _ (sixPresent_updBucket h)

theorem alookup_eq_none_of_not_mem {α : Type} {k : String} :
    ∀ {l : List (String × α)}, k ∉ l.map Prod.fst → alookup k l = none := by
  intro l
  induction l with
  | nil => intro _; rfl
  | cons p rest ih =>
    intro h
    rw [List.map_cons] at h
    rw [alookup, if_neg (fun hc => h (by rw [hc]; simp))]
    exact ih (fun hc => h (by simp [hc]))

theorem alookup_of_mem_nodup {α : Type} {k : String} {v : α} :
    ∀ {l : List (String × α)}, (k, v) ∈ l → (l.map Prod.fst).Nodup →
      alookup k l = some v := by
  intro l
  induction l with
  | nil => intro h _; cases h
  | cons p rest ih =>
    intro hmem hnd
    rw [List.map_cons] at hnd
    have hnd2 := List.nodup_cons.mp hnd
    rcases List.mem_cons.mp hmem with h1 | h1
    · rw [← h1]
      rw [alookup, if_pos rfl]
    · rw [alookup, if_neg]
      · exact ih h1 hnd2.2
      · intro hc
        exact hnd2.1 (by
          rw [hc]
          exact List.mem_map.mpr ⟨(k, v), h1, rfl⟩)

theorem entries_fold_tGet (pid b : String) (th : Nat) (lbl : String)
    (hmem : (th, lbl) ∈ thrPairs) :
    ∀ (entries : List (String × ℚ)) (outer : List (String × List (String × List String))),
      (∀ kv ∈ entries, kv.1 ∈ buckets) →
      (entries.map Prod.fst).Nodup →
      sixPresent outer →
      tGet (entries.foldl (stepEntry pid) outer) b lbl =
        tGet outer b lbl ++
          (match alookup b entries with
           | some v => if (th : ℚ) ≤ v then [pid] else []
           | none => []) := by
  intro entries
  induction entries with
  | nil => intro outer _ _ _; simp [alookup]
  | cons kv rest ih =>
    intro outer hkeys hnd hsix
    obtain ⟨k, v⟩ := kv
    rw [List.foldl_cons]
    rw [List.map_cons] at hnd
    have hnd2 := List.nodup_cons.mp hnd
    by_cases hk : k = b
    · subst hk
      have hrest : alookup k rest = none := alookup_eq_none_of_not_mem hnd2.1
      rw [ih (stepEntry pid outer (k, v)) (fun x hx => hkeys x (by simp [hx])) hnd2.2
        (sixPresent_updBucket hsix)]
      rw [hrest]
      have hsome := hsix k (hkeys (k, v) (by simp))
      cases halt : alookup k outer with
      | none => rw [halt] at hsome; cases hsome
      | some inner =>
        have hstep : tGet (stepEntry pid outer (k, v)) k lbl =
            tGet outer k lbl ++ (if (th : ℚ) ≤ v then [pid] else []) := by
          unfold stepEntry tGet
          rw [alookup_updBucket, if_pos rfl, halt]
          show (alookup lbl (applyThr inner v pid)).getD [] =
            (alookup lbl inner).getD [] ++ if (th : ℚ) ≤ v then [pid] else []
          rw [applyThr_alookup _ _ _ th lbl hmem]
          by_cases hle : (th : ℚ) ≤ v
          · rw [if_pos hle, if_pos hle]
            simp
          · rw [if_neg hle, if_neg hle]
            simp
        rw [hstep]
        rw [alookup, if_pos rfl]
        simp
    · have halk : alookup b ((k, v) :: rest) = alookup b rest := by
        rw [alookup, if_neg hk]
      rw [ih (stepEntry pid outer (k, v)) (fun x hx => hkeys x (by simp [hx])) hnd2.2
        (sixPresent_updBucket hsix)]
      rw [halk]
      have hstep : tGet (stepEntry pid outer (k, v)) b lbl = tGet outer b lbl := by
        unfold stepEntry tGet
        rw [alookup_updBucket, if_neg (fun hc => hk hc.symm)]
      rw [hstep]

theorem sixPresent_stepItem {outer : List (String × List (String × List String))}
    {it : CatItem} (h : sixPresent outer) : sixPresent (stepItem outer it) :=
  sixPresent_entriesFold it.times outer h

theorem items_fold_tGet (b : String) (th : Nat) (lbl : String)
    (hmem : (th, lbl) ∈ thrPairs) :
    ∀ (items : List CatItem) (outer : List (String × List (String × List String))),
      (∀ it ∈ items, ∀ kv ∈ it.times, kv.1 ∈ buckets) →
      (∀ it ∈ items, (it.times.map Prod.fst).Nodup) →
      sixPresent outer →
      tGet (items.foldl stepItem outer) b lbl =
        tGet outer b lbl ++ (items.filter (qualifiesB b th)).map CatItem.id := by
  intro items
  induction items with
  | nil => intro outer _ _ _; simp
  | cons it rest ih =>
    intro outer hkeys hnds hsix
    rw [List.foldl_cons]
    rw [ih (stepItem outer it) (fun x hx => hkeys x (by simp [hx]))
      (fun x hx => hnds x (by simp [hx])) (sixPresent_stepItem hsix)]
    have hstep : tGet (stepItem outer it) b lbl =
        tGet outer b lbl ++ (if qualifiesB b th it then [it.id] else []) := by
      unfold stepItem
      rw [entries_fold_tGet it.id b th lbl hmem it.times outer
        (hkeys it (by simp)) (hnds it (by simp)) hsix]
      unfold qualifiesB
      cases halt : alookup b it.times with
      | none => simp
      | some v =>
        by_cases hle : (th : ℚ) ≤ v
        · rw [if_pos (by simp [hle])]
          simp [hle]
        · rw [if_neg (by simp [hle])]
          simp [hle]
    rw [hstep, List.filter_cons]
    by_cases hq : qualifiesB b th it = true
    · rw [if_pos (by simp [hq]), if_pos hq]
      simp
    · rw [if_neg (by simp [hq]), if_neg hq]
      simp

theorem nodup_map_inj {A B : Type} {f : A → B} :
    ∀ {l : List A}, (l.map f).Nodup →
      ∀ x ∈ l, ∀ y ∈ l, f x = f y → x = y := by
  intro l
  induction l with
  | nil => intro _ x hx; cases hx
  | cons a rest ih =>
    intro hnd x hx y hy hf
    rw [List.map_cons] at hnd
    have hnd2 := List.nodup_cons.mp hnd
    rcases List.mem_cons.mp hx with h1 | h1 <;> rcases List.mem_cons.mp hy with h2 | h2
    · rw [h1, h2]
    · exact absurd (List.mem_map.mpr ⟨y, h2, by rw [← hf, h1]⟩) hnd2.1
    · exact absurd (List.mem_map.mpr ⟨x, h1, by rw [hf, h2]⟩) hnd2.1
    · exact ih hnd2.2 x h1 y h2 hf

theorem alookup_map_nil_of_mem :
    ∀ (l : List String) (b : String), b ∈ l →
      alookup b (l.map (fun x => (x, ([] : List (String × List String))))) = some [] := by
  intro l
  induction l with
  | nil => intro b hb; cases hb
  | cons x rest ih =>
    intro b hb
    rw [List.map_cons, alookup]
    by_cases hx : x = b
    · rw [if_pos hx]
    · rw [if_neg hx]
      exact ih b (by
        rcases List.mem_cons.mp hb with h1 | h1
        · exact absurd h1.symm hx
        · exact h1)

theorem timesFacet_tGet (items : List CatItem) (b : String) (th : Nat) (lbl : String)
    (hmem : (th, lbl) ∈ thrPairs) (hb : b ∈ buckets)
    (hkeys : ∀ it ∈ items, ∀ kv ∈ it.times, kv.1 ∈ buckets)
    (hnds : ∀ it ∈ items, (it.times.map Prod.fst).Nodup) :
    tGet (timesFacet items) b lbl = (items.filter (qualifiesB b th)).map CatItem.id := by
  unfold timesFacet
  rw [items_fold_tGet b th lbl hmem items _ hkeys hnds
    (fun x hx => by rw [alookup_map_nil_of_mem buckets x hx]; rfl)]
  have hinit : tGet (buckets.map (fun b => (b, []))) b lbl = [] := by
    unfold tGet
    rw [alookup_map_nil_of_mem buckets b hb]
    rfl
  rw [hinit, List.nil_append]

/-! ## Claim C1: name/gender split of the record assembler -/

/-- Claim C1 counterexample: the claim asserts that for a title without the
separator `" for "` the extraction still succeeds with the full title as name
and no gender.  On the own example of the spec, `"Santal 33"` the code raises
`IndexError` on `split(" for ")[1]` — the extraction fails, modelled by
`none`. -/
theorem c1_counterexample :
    extractNameGender (("Santal 33").toList) = none ∧
    containsTok sepFor (("Santal 33").toList) = false := by decide

/-- Claim C1 (amended): for a title of the form `a ++ " for " ++ b` where no
occurrence of the separator starts inside `a`, the extraction succeeds with
`name = a` and `gender` equal to the part of `b` before the next occurrence of
the separator (all of `b` when there is none); for a title that does not
contain `" for "`, the extraction fails (Python raises `IndexError`) instead
of succeeding with an absent gender. -/
theorem c1_theorem :
    (∀ a b : List Char,
      (∀ i, i < a.length → isPrefixB sepFor (List.drop i (a ++ sepFor ++ b)) = false) →
      extractNameGender (a ++ sepFor ++ b) = some (a, upToFirst sepFor b)) ∧
    (∀ t : List Char, containsTok sepFor t = false → extractNameGender t = none) := by
  constructor
  · intro a b h
    have hs : splitFirst sepFor (a ++ sepFor ++ b) = some (a, b) :=
      splitFirst_append (by decide) a b h
    unfold extractNameGender
    rw [hs]
    cases hb : splitFirst sepFor b with
    | none =>
      rw [upToFirst_eq_self_of_none b hb]
      show (match splitFirst sepFor b with
            | none => some (a, b)
            | some gq => some (a, gq.1)) = some (a, b)
      rw [hb]
    | some gq =>
      obtain ⟨g, q⟩ := gq
      rw [← splitFirst_fst_eq_upToFirst hb]
      show (match splitFirst sepFor b with
            | none => some (a, b)
            | some gq => some (a, gq.1)) = some (a, g)
      rw [hb]
  · intro t ht
    unfold extractNameGender
    rw [splitFirst_eq_none_of_not_contains t ht]

/-- Claim C1 witness: the amended theorem applied to the examples of the spec,
`"Delina for women"` and `"Santal 33"`. -/
theorem c1_witness :
    extractNameGender (("Delina").toList ++ sepFor ++ ("women").toList) =
      some (("Delina").toList, upToFirst sepFor (("women").toList)) ∧
    extractNameGender (("nope").toList) = none :=
  ⟨c1_theorem.1 (("Delina").toList) (("women").toList) (by decide),
   c1_theorem.2 (("nope").toList) (by decide)⟩

/-! ## Claim C5: shape of the slug normalizer output -/

/-- Claim C5 counterexample: the claim asserts every output matches
`^[a-z0-9]+(-[a-z0-9]+)*$` or is empty.  `to_slug "-"` returns `"-"`, which is
non-empty and does not match (leading/trailing hyphens are never stripped by
the code). -/
theorem c5_counterexample :
    to_slug (("-").toList) = ("-").toList ∧
    isSlugToken (("-").toList) = false ∧
    ("-").toList ≠ ([] : List Char) := by decide

/-- Claim C5 (amended): every `to_slug` output consists solely of lowercase
alphanumerics and hyphens with no two adjacent hyphens, but a leading or
trailing hyphen already present in the input survives (the code has no
leading/trailing-hyphen strip), so the anchored token regex can fail. -/
theorem c5_theorem :
    ∀ s : List Char,
      (to_slug s).all (fun c => isLowerAl c || isDigitC c || c = '-') = true ∧
      noDoubleHyphen (to_slug s) = true := by
  intro s
  obtain ⟨h1, h2⟩ := to_slug_shape s
  exact ⟨List.all_eq_true.mpr h1, h2⟩

/-! ## Claim C9: idempotence of the slug normalizer -/

/-- Claim C9: `to_slug` is idempotent, and the concrete examples of the spec hold:
`slug "Parfums de Marly" = "parfums-de-marly"`, `slug "  Tom   Ford!! " =
"tom-ford"`, `slug "" = ""`. -/
theorem c9_theorem :
    (∀ s : List Char, to_slug (to_slug s) = to_slug s) ∧
    to_slug (("Parfums de Marly").toList) = ("parfums-de-marly").toList ∧
    to_slug (("  Tom   Ford!! ").toList) = ("tom-ford").toList ∧
    to_slug (("").toList) = ("").toList := by
  refine ⟨?_, by decide, by decide, by decide⟩
  intro s
  obtain ⟨hall, hnd⟩ := to_slug_shape s
  have h1 : pyStrip (to_slug s) = to_slug s :=
    pyStrip_eq_self_of_not (fun c hc => slugchar_not_ws (hall c hc))
  have h2 : (to_slug s).map lowerC = to_slug s :=
    map_eq_self_of_fix (fun c hc => lowerC_eq_self_of_slugchar (hall c hc))
  have h3 : (to_slug s).filter isKeep = to_slug s :=
    filter_eq_self_of_all (fun c hc => slugchar_keep (hall c hc))
  have h4 : collapseRuns pyWs '-' (to_slug s) false = to_slug s :=
    collapseRuns_eq_self_of_no_p _ false (fun c hc => slugchar_not_ws (hall c hc))
  have h5 : collapseRuns isHyp '-' (to_slug s) false = to_slug s :=
    (collapseHyp_eq_self _ hnd).1
  show collapseRuns isHyp '-'
      (collapseRuns pyWs '-' (((pyStrip (to_slug s)).map lowerC).filter isKeep) false) false =
    to_slug s
  rw [h1, h2, h3, h4, h5]

/-! ## Claim C3: batch-loop error behaviour -/

/-- Claim C3 counterexample: with three pages whose middle page fails, the
claim demands that the run continues to the third page and reports the
accumulated `(url, error)` list at the end; the code instead calls `exit()`
at the failing page: only the first page is processed, the run aborts at
`"u2"` and `"u3"` is never visited. -/
theorem c3_counterexample :
    runBatch [("u1", PageOutcome.ok), ("u2", PageOutcome.noJson), ("u3", PageOutcome.ok)] =
      (["u1"], some "u2") ∧
    ¬ ("u3" ∈ (runBatch [("u1", PageOutcome.ok), ("u2", PageOutcome.noJson),
      ("u3", PageOutcome.ok)]).1) := by decide

/-- Claim C3 (amended): a batch run processes pages in order and aborts at the
first page whose extraction fails (missing JSON or missing brand): the pages
before it are fully processed, the url of the failing page is where the run stops,
no later page is visited, and no error list is accumulated.  A run whose pages
all succeed processes every page. -/
theorem c3_theorem :
    (∀ pages : List (String × PageOutcome),
      (∀ p ∈ pages, p.2 = PageOutcome.ok) →
      runBatch pages = (pages.map Prod.fst, none)) ∧
    (∀ (pre : List (String × PageOutcome)) (u : String) (st : PageOutcome)
        (rest : List (String × PageOutcome)),
      (∀ p ∈ pre, p.2 = PageOutcome.ok) → st ≠ PageOutcome.ok →
      runBatch (pre ++ (u, st) :: rest) = (pre.map Prod.fst, some u)) := by
  constructor
  · intro pages h
    induction pages with
    | nil => rfl
    | cons p rest ih =>
      obtain ⟨u, st⟩ := p
      have hp : st = PageOutcome.ok := h (u, st) (by simp)
      subst hp
      have ih2 := ih (fun x hx => h x (by simp [hx]))
      simp [runBatch, ih2]
  · intro pre u st rest hpre hst
    induction pre with
    | nil =>
      cases st with
      | ok => exact absurd rfl hst
      | noJson => simp [runBatch]
      | noBrand => simp [runBatch]
    | cons p pre2 ih =>
      obtain ⟨w, st2⟩ := p
      have hp : st2 = PageOutcome.ok := hpre (w, st2) (by simp)
      subst hp
      have ih2 := ih (fun x hx => hpre x (by simp [hx]))
      simp [runBatch, ih2]

/-- Claim C3 witness: the amended theorem applied to an all-ok run and to a
run failing at its second page. -/
theorem c3_witness :
    runBatch [("a", PageOutcome.ok)] = ([("a", PageOutcome.ok)].map Prod.fst, none) ∧
    runBatch ([("a", PageOutcome.ok)] ++ ("b", PageOutcome.noBrand) :: [("c", PageOutcome.ok)]) =
      ([("a", PageOutcome.ok)].map Prod.fst, some "b") :=
  ⟨c3_theorem.1 [("a", PageOutcome.ok)] (by decide),
   c3_theorem.2 [("a", PageOutcome.ok)] "b" PageOutcome.noBrand [("c", PageOutcome.ok)]
     (by decide) (by decide)⟩

/-! ## Claim C4: occasion/season extractor -/

/-- Claim C4 counterexample: the claim asserts that a row whose width style is
missing or unparsable contributes no key at all, never a `None` placeholder.
The code stores `ideal_times[t_name] = width` unconditionally: a `"Summer"`
row with empty style attribute yields the key `"Summer"` mapped to `None`. -/
theorem c4_counterexample :
    extractTimes [("Winter", ("width: 73%;").toList), ("Summer", [])] =
      [("Winter", some (("73%").toList)), ("Summer", none)] ∧
    alookup "Summer" (extractTimes [("Winter", ("width: 73%;").toList), ("Summer", [])]) =
      some none := by decide

/-- Claim C4 (amended): the extractor emits one entry per rating row, in row
order (for distinct labels, as produced by a Python dict over distinct row
labels): the key is the label of the row and the value is the stripped `width`
token when the regex matches, and `None` — not an absent key — when the style
is missing or unparsable. -/
theorem c4_theorem :
    ∀ rows : List (String × List Char),
      (rows.map Prod.fst).Nodup →
      extractTimes rows = rows.map (fun row => (row.1, findWidth row.2)) := by
  intro rows hnd
  unfold extractTimes
  rw [extractTimes_foldl_fresh rows [] hnd (fun r _ p hp => absurd hp (List.not_mem_nil p))]
  simp

/-- Claim C4 witness: the amended theorem applied to a page exposing exactly a
Winter and a Night row. -/
theorem c4_witness :
    extractTimes [("Winter", ("width: 73%;").toList), ("Night", ("width: 60%;").toList)] =
      [("Winter", some (("73%").toList)), ("Night", some (("60%").toList))] := by
  have h := c4_theorem
    [("Winter", ("width: 73%;").toList), ("Night", ("width: 60%;").toList)] (by decide)
  exact h.trans (by decide)

/-! ## Claim C6: percentage parser -/

/-- Claim C6 counterexample: the claim asserts
`parse("width: 42.5%;") = 42.5`; `pct_to_float` only strips whitespace and
removes `%`, so `float("width: 42.5;")` raises and the function returns
`None` — the `width:` extraction happens in the regex of the scraper, not here. -/
theorem c6_counterexample :
    pct_to_float (some (("width: 42.5%;").toList)) = none ∧
    ¬ pct_to_float (some (("width: 42.5%;").toList)) = some ((85 : ℚ) / 2) := by decide

/-- Claim C6 (amended): `pct_to_float` never raises (it is a total function):
absent input yields absent, a plain numeric string with or without a trailing
`%` yields its numeric value, and non-numeric input — including a CSS
`width:` declaration, whose token extraction is performed earlier by the
regex of the scraper — yields absent. -/
theorem c6_theorem :
    pct_to_float none = none ∧
    pct_to_float (some (("garbage").toList)) = none ∧
    pct_to_float (some (("width: 42.5%;").toList)) = none ∧
    (∀ ds : List Char, ds ≠ [] → (∀ c ∈ ds, isDigitC c = true) →
      pct_to_float (some ds) = some ((digitsToNat ds : ℚ)) ∧
      pct_to_float (some (ds ++ ['%'])) = some ((digitsToNat ds : ℚ))) := by
  refine ⟨rfl, by decide, by decide, ?_⟩
  intro ds h1 h2
  exact pct_to_float_digits h1 h2

/-- Claim C6 witness: the amended theorem applied to the digit string `"73"`,
covering `parse("73") = 73.0` and `parse("73%") = 73.0`. -/
theorem c6_witness :
    pct_to_float (some (("73").toList)) = some ((digitsToNat (("73").toList) : ℚ)) ∧
    pct_to_float (some (("73").toList ++ ['%'])) = some ((digitsToNat (("73").toList) : ℚ)) ∧
    (digitsToNat (("73").toList) : ℚ) = 73 := by
  have h := c6_theorem.2.2.2 (("73").toList) (by decide) (by decide)
  exact ⟨h.1, h.2, by decide⟩

/-! ## Claim C7: image identifier derivation -/

theorem takeWhile_comp (p q : Char → Bool) :
    ∀ l : List Char, (l.takeWhile q).takeWhile p = l.takeWhile (fun c => q c && p c) := by
  intro l
  induction l with
  | nil => rfl
  | cons c rest ih =>
    by_cases hq : q c = true
    · by_cases hp : p c = true
      · simp [List.takeWhile_cons, hq, hp, ih]
      · simp [List.takeWhile_cons, hq, hp]
    · simp [List.takeWhile_cons, hq]

theorem lastSegs_suffix (base ds : List Char)
    (hds : ∀ c ∈ ds, isDigitC c = true) :
    lastSeg '-' (lastSeg '/' (base ++ '-' :: (ds ++ (".html").toList))) =
      ds ++ (".html").toList := by
  unfold lastSeg
  rw [List.reverse_reverse]
  rw [takeWhile_comp]
  have hrev : (base ++ '-' :: (ds ++ (".html").toList)).reverse =
      (".html").toList.reverse ++ (ds.reverse ++ '-' :: base.reverse) := by
    simp
  rw [hrev]
  rw [takeWhile_append_of_all _ (by decide)]
  rw [takeWhile_append_of_all _ ?hdig]
  case hdig =>
    intro c hc
    have hd := hds c (List.mem_reverse.mp hc)
    simp only [Bool.and_eq_true, decide_eq_true_eq]
    exact ⟨digit_ne (by decide) hd, digit_ne (by decide) hd⟩
  rw [takeWhile_cons_of_neg base.reverse (by decide)]
  simp

/-- Claim C7 counterexample: the claim asserts that a URL with no numeric
trailing segment makes the extraction fail hard; the code never checks the
segment and never fails: on `.../foo.html` it produces the non-numeric id
`"foo"` and completes the thumbnail URL, hence the record. -/
theorem c7_counterexample :
    imageId (("https://www.fragrantica.com/perfume/Brand/foo.html").toList) = ("foo").toList ∧
    (("foo").toList.all isDigitC) = false ∧
    img_url (("https://www.fragrantica.com/perfume/Brand/foo.html").toList) =
      ("https://fimgs.net/mdimg/perfume-thumbs/375x500.foo.jpg").toList := by decide

/-- Claim C7 (amended): the image id is the segment after the last hyphen of
the final path component of the URL with the last five characters (`.html`)
dropped, whatever its content: for a URL ending in a hyphen followed by a
numeric segment and `.html` it is that numeric segment, and for a non-numeric
segment the derivation still completes with that segment — no hard failure
occurs. -/
theorem c7_theorem :
    ∀ (base ds : List Char), ds ≠ [] → (∀ c ∈ ds, isDigitC c = true) →
      imageId (base ++ '-' :: (ds ++ (".html").toList)) = ds := by
  intro base ds hne hds
  unfold imageId
  rw [lastSegs_suffix base ds hds]
  unfold pyDropLast5
  have hlen : (ds ++ (".html").toList).length - 5 = ds.length := by simp
  rw [hlen, take_length_append]

/-- Claim C7 witness: the amended theorem applied to a URL ending in
`-12345.html`. -/
theorem c7_witness :
    imageId (("https://www.fragrantica.com/perfume/Lattafa-Perfumes/Khamrah").toList ++
      '-' :: (("12345").toList ++ (".html").toList)) = ("12345").toList :=
  c7_theorem (("https://www.fragrantica.com/perfume/Lattafa-Perfumes/Khamrah").toList)
    (("12345").toList) (by decide) (by decide)

/-! ## Claim C2: note-pyramid segmenter -/

/-- Claim C2: with at least three `h4` tier headers, the note tokens are cut
into three contiguous runs whose lengths are the `span` counts between
consecutive headers (the hypothesis `t + m + bse = |tokens|` states that the
counted leaf nodes are exactly the rendered note tokens, which ties the two
independently-scraped node lists of the source together); with fewer than
three headers, all tokens land in the top tier and the middle and base tiers
are empty (the anchor-count hypothesis states that each note token is rendered
by exactly one `a` node). -/
theorem c2_theorem :
    (∀ (elements noteTexts : List String) (t m bse : Nat),
      3 ≤ (indicesOf "h4" elements).length →
      tierCounts elements = (t, m, bse) →
      t + m + bse = (noteTexts.filter (fun x => x ≠ "")).length →
      parserNotes elements noteTexts =
        ((noteTexts.filter (fun x => x ≠ "")).take t,
         ((noteTexts.filter (fun x => x ≠ "")).drop t).take m,
         ((noteTexts.filter (fun x => x ≠ "")).drop t).drop m) ∧
      ((noteTexts.filter (fun x => x ≠ "")).take t).length = t ∧
      (((noteTexts.filter (fun x => x ≠ "")).drop t).take m).length = m ∧
      (((noteTexts.filter (fun x => x ≠ "")).drop t).drop m).length = bse ∧
      (noteTexts.filter (fun x => x ≠ "")).take t ++
        (((noteTexts.filter (fun x => x ≠ "")).drop t).take m ++
          ((noteTexts.filter (fun x => x ≠ "")).drop t).drop m) =
        noteTexts.filter (fun x => x ≠ "")) ∧
    (∀ (elements noteTexts : List String),
      (indicesOf "h4" elements).length < 3 →
      (indicesOf "a" elements).length = (noteTexts.filter (fun x => x ≠ "")).length →
      parserNotes elements noteTexts = (noteTexts.filter (fun x => x ≠ ""), [], [])) := by
  constructor
  · intro elements noteTexts t m bse hge htc hsum
    have hp : parserNotes elements noteTexts =
        ((noteTexts.filter (fun x => x ≠ "")).take (tierCounts elements).1,
         if (tierCounts elements).2.1 ≠ 0 then
           ((noteTexts.filter (fun x => x ≠ "")).drop (tierCounts elements).1).take
             (tierCounts elements).2.1
         else [],
         if (tierCounts elements).2.2 ≠ 0 then
           (noteTexts.filter (fun x => x ≠ "")).drop
             ((noteTexts.filter (fun x => x ≠ "")).length - (tierCounts elements).2.2)
         else []) := rfl
    have h1 : (tierCounts elements).1 = t := by rw [htc]
    have h2 : (tierCounts elements).2.1 = m := by rw [htc]
    have h3 : (tierCounts elements).2.2 = bse := by rw [htc]
    rw [h1, h2, h3] at hp
    have hmid : (if m ≠ 0 then
        ((noteTexts.filter (fun x => x ≠ "")).drop t).take m else []) =
        ((noteTexts.filter (fun x => x ≠ "")).drop t).take m := by
      by_cases hm : m = 0
      · subst hm
        simp
      · rw [if_pos hm]
    have hbase : (if bse ≠ 0 then
        (noteTexts.filter (fun x => x ≠ "")).drop
          ((noteTexts.filter (fun x => x ≠ "")).length - bse) else []) =
        ((noteTexts.filter (fun x => x ≠ "")).drop t).drop m := by
      rw [List.drop_drop]
      by_cases hb : bse = 0
      · subst hb
        rw [if_neg (by simp)]
        symm
        refine List.drop_eq_nil_of_le ?_
        omega
      · rw [if_pos hb]
        congr 1
        omega
    refine ⟨?_, ?_, ?_, ?_, ?_⟩
    · rw [hp, hmid, hbase]
    · rw [List.length_take]
      omega
    · rw [List.length_take, List.length_drop]
      omega
    · rw [List.length_drop, List.length_drop]
      omega
    · rw [List.take_append_drop, List.take_append_drop]
  · intro elements noteTexts hlt heq
    have htc : tierCounts elements = ((indicesOf "a" elements).length, 0, 0) := by
      unfold tierCounts
      cases h4 : indicesOf "h4" elements with
      | nil => rfl
      | cons i0 r1 =>
        cases r1 with
        | nil => rfl
        | cons i1 r2 =>
          cases r2 with
          | nil => rfl
          | cons i2 r3 =>
            rw [h4] at hlt
            simp at hlt
            omega
    have hp : parserNotes elements noteTexts =
        ((noteTexts.filter (fun x => x ≠ "")).take (tierCounts elements).1,
         if (tierCounts elements).2.1 ≠ 0 then
           ((noteTexts.filter (fun x => x ≠ "")).drop (tierCounts elements).1).take
             (tierCounts elements).2.1
         else [],
         if (tierCounts elements).2.2 ≠ 0 then
           (noteTexts.filter (fun x => x ≠ "")).drop
             ((noteTexts.filter (fun x => x ≠ "")).length - (tierCounts elements).2.2)
         else []) := rfl
    rw [hp, htc, heq]
    simp

/-- Claim C2 witness: the examples of the spec.  A pyramid with three headers and
span counts 5/4/3 over twelve tokens slices them 5/4/3 in order; a pyramid
with no headers and six anchor-rendered tokens puts all six in the top tier. -/
theorem c2_witness :
    parserNotes
      ["h4", "span", "span", "span", "span", "span",
       "h4", "span", "span", "span", "span",
       "h4", "span", "span", "span"]
      ["n01", "n02", "n03", "n04", "n05", "n06", "n07", "n08", "n09", "n10", "n11", "n12"] =
      (["n01", "n02", "n03", "n04", "n05"],
       ["n06", "n07", "n08", "n09"],
       ["n10", "n11", "n12"]) ∧
    parserNotes ["a", "a", "a", "a", "a", "a"]
      ["m1", "m2", "m3", "m4", "m5", "m6"] =
      (["m1", "m2", "m3", "m4", "m5", "m6"], [], []) := by
  constructor
  · have h := (c2_theorem.1
      ["h4", "span", "span", "span", "span", "span",
       "h4", "span", "span", "span", "span",
       "h4", "span", "span", "span"]
      ["n01", "n02", "n03", "n04", "n05", "n06", "n07", "n08", "n09", "n10", "n11", "n12"]
      5 4 3 (by decide) (by decide) (by decide)).1
    exact h.trans (by decide)
  · have h := c2_theorem.2 ["a", "a", "a", "a", "a", "a"]
      ["m1", "m2", "m3", "m4", "m5", "m6"] (by decide) (by decide)
    exact h.trans (by decide)

/-! ## Claim C8: threshold-bucketed times facet -/

/-- Claim C8: in the `times` facet, for every catalog item with occasion score
`v` in bucket `b` and every threshold/label pair of `[50,70,80,90]`, the id
list under that label in bucket `b` is exactly the ids of the qualifying items
in catalog order — hence the id of an item appears there iff `v` reaches the
threshold.  The hypotheses record that the times keys of each item are among the
six buckets (anything else would raise `KeyError` in the source) and are
duplicate-free (they come from a Python dict), and — for the membership
equivalence — that item ids are pairwise distinct. -/
theorem c8_theorem :
    ∀ (items : List CatItem) (b : String) (th : Nat) (lbl : String),
      b ∈ buckets → (th, lbl) ∈ thrPairs →
      (∀ it ∈ items, ∀ kv ∈ it.times, kv.1 ∈ buckets) →
      (∀ it ∈ items, (it.times.map Prod.fst).Nodup) →
      tGet (timesFacet items) b lbl = (items.filter (qualifiesB b th)).map CatItem.id ∧
      (∀ (it : CatItem) (v : ℚ), (items.map CatItem.id).Nodup → it ∈ items →
        (b, v) ∈ it.times → (it.id ∈ tGet (timesFacet items) b lbl ↔ (th : ℚ) ≤ v)) := by
  intro items b th lbl hb hmem hkeys hnds
  have hchar := timesFacet_tGet items b th lbl hmem hb hkeys hnds
  refine ⟨hchar, ?_⟩
  intro it v hndids hit hbv
  have hq : qualifiesB b th it = decide ((th : ℚ) ≤ v) := by
    unfold qualifiesB
    rw [alookup_of_mem_nodup hbv (hnds it hit)]
  rw [hchar]
  constructor
  · intro hmem2
    rcases List.mem_map.mp hmem2 with ⟨it2, hit2, hid⟩
    have hit2mem := List.mem_filter.mp hit2
    have heq : it2 = it := nodup_map_inj hndids it2 hit2mem.1 it hit hid
    rw [heq] at hit2mem
    have hq2 := hit2mem.2
    rw [hq] at hq2
    simpa using hq2
  · intro hle
    refine List.mem_map.mpr ⟨it, List.mem_filter.mpr ⟨hit, ?_⟩, rfl⟩
    rw [hq]
    simpa using hle

/-- Claim C8 witness: the theorem applied to a two-item catalog with winter
scores 80 and 55 at threshold 70 — only the first item qualifies. -/
theorem c8_witness :
    tGet (timesFacet [CatItem.mk "1" [("winter", (80 : ℚ))],
        CatItem.mk "2" [("winter", (55 : ℚ))]]) "winter" ">=70" = ["1"] := by
  have h := (c8_theorem
    [CatItem.mk "1" [("winter", (80 : ℚ))], CatItem.mk "2" [("winter", (55 : ℚ))]]
    "winter" 70 ">=70" (by decide) (by decide) (by decide) (by decide)).1
  exact h.trans (by decide)

/-! ## Claim C10: six-bucket key restriction of both consumers -/

/-- Claim C10: both the item times of the catalog builder and the
normalized-record times of the uploader only ever carry keys among the six exact lowercase
bucket names, and any `ideal_times` entry with a different key — for example
a verbatim capitalized label as stored by the scraper — is silently dropped:
removing it does not change either output. -/
theorem c10_theorem :
    (∀ timesObj : List (String × Option (List Char)),
      ∀ p ∈ build_items_times timesObj, p.1 ∈ buckets) ∧
    (∀ timesObj : List (String × Option (List Char)),
      ∀ p ∈ normalize_record_times timesObj, p.1 ∈ buckets) ∧
    (∀ (timesObj : List (String × Option (List Char))) (k : String)
        (v : Option (List Char)), k ∉ buckets →
      build_items_times ((k, v) :: timesObj) = build_items_times timesObj ∧
      normalize_record_times ((k, v) :: timesObj) = normalize_record_times timesObj) := by
  refine ⟨?_, ?_, ?_⟩
  · intro timesObj p hp
    exact times_foldl_keys buckets timesObj [] (by simp) (fun k hk => hk) p hp
  · intro timesObj p hp
    exact times_foldl_keys buckets timesObj [] (by simp) (fun k hk => hk) p hp
  · intro timesObj k v hk
    constructor
    · exact times_foldl_drop buckets timesObj []
        (fun x hx hc => hk (hc ▸ hx))
    · exact times_foldl_drop buckets timesObj []
        (fun x hx hc => hk (hc ▸ hx))

/-- Claim C10 witness: the theorem applied to an `ideal_times` dict holding
the scraper-style capitalized key `"Winter"` next to a lowercase `"winter"`:
the capitalized entry is dropped by both consumers. -/
theorem c10_witness :
    build_items_times [("Winter", some (("73%").toList)),
        ("winter", some (("80%").toList))] =
      build_items_times [("winter", some (("80%").toList))] ∧
    normalize_record_times [("Winter", some (("73%").toList)),
        ("winter", some (("80%").toList))] =
      normalize_record_times [("winter", some (("80%").toList))] :=
  c10_theorem.2.2 [("winter", some (("80%").toList))] "Winter"
    (some (("73%").toList)) (by decide)

end Perfumes
